import Mathlib

/-!
Verification development for the delta-go storage layer: the local
filesystem object store (src/storage/filestore/filestore.go) and the
state-store contract, over a shallow embedding of the Go code.

Paths are modelled at the level of slash-separated components: a raw Go
path string is mapped to its list of nonempty components, which matches
what filepath.Join / path.Join / strings.TrimPrefix compute on clean
relative paths (no "." or ".." resolution is modelled; components are
opaque tokens).  The filesystem is a finite association list from
component paths to entries (regular files carrying their bytes, or
directories carrying the size and mtime that stat reports for them),
plus a set of paths on which stat fails with a non-not-exist OS error
(e.g. permission denied), which models the failure mode that
filestore.go's Head does not handle.
-/

namespace DeltaGo

/-- A path as a list of slash-separated components. -/
abbrev PathC := List String

/-- Splits a character list at every slash, keeping empty pieces
(the pieces of Go's strings.Split(s, "/")). -/
def splitPiecesAux : List Char → List Char → List String
  | [], acc => [String.mk acc.reverse]
  | c :: cs, acc =>
    if c = '/' then String.mk acc.reverse :: splitPiecesAux cs []
    else splitPiecesAux cs (c :: acc)

/-- All slash-separated pieces of a string, empties included. -/
def splitPieces (s : String) : List String := splitPiecesAux s.data []

/-- The components of a raw path string: slash-separated pieces with
empty pieces dropped.  This is what a cleaned relative path contributes
to filepath.Join. -/
def comps (s : String) : PathC := (splitPieces s).filter (fun c => c ≠ "")

/-- Joins components back into a raw path string. -/
def strOfComps : PathC → String
  | [] => ""
  | [c] => c
  | c :: cs => c ++ "/" ++ strOfComps cs

/-- Go's strings.HasPrefix(s, pre). -/
def hasPrefixStr (s pre : String) : Bool := pre.data.isPrefixOf s.data

/-- Whether the raw string contains a path separator.  filepath.Split
returns a nonempty directory part exactly when the path contains one. -/
def hasSlash (s : String) : Bool := s.data.contains '/'

/-- The file-name part of Go's filepath.Split: everything after the
last separator (the whole string when there is no separator). -/
def splitFilePart (s : String) : String := ((splitPieces s).getLast?).getD ""

/-- The components of the directory part of Go's filepath.Split:
every piece before the last separator, empties dropped. -/
def splitDirComps (s : String) : PathC :=
  ((splitPieces s).dropLast).filter (fun c => c ≠ "")

/-- Component-level model of strings.TrimPrefix(str l, str pre ++ "/"):
the string form of l starts with the slash-terminated string form of
pre exactly when pre is a proper component-prefix of l. -/
def trimPrefixC (l pre : PathC) : PathC :=
  if pre ≠ l ∧ pre.isPrefixOf l then l.drop pre.length else l

/-- storage.Path: wraps a raw string location.  Modelled from the spec:
the storage package itself is not under src/, only its filestore
implementation is; per the spec a Path wraps a raw string, relative to
a store's base location. -/
structure Path where
  Raw : String
deriving DecidableEq, Repr

/-- storage.ObjectMeta: Location, Size and LastModified.  Modelled from
the spec: descriptive metadata returned by inspection and listing
operations.  Size is Go int64, LastModified an abstract timestamp. -/
structure ObjectMeta where
  Location : Path
  Size : Int
  LastModified : Int
deriving DecidableEq, Repr

/-- Go error values as they appear in filestore.go.  The sentinel
constructors model the distinct error variables of the storage package
(modelled from the spec's error taxonomy, the storage package not being
under src/); osNotExist / osPermission / osIsDir / osNotDir / osOther
model raw operating-system errors; join models errors.Join and wrapf
models fmt.Errorf with a %w verb. -/
inductive GoError where
  | objectDoesNotExist
  | objectIsDir
  | versionAlreadyExists
  | deleteObject
  | listObjects
  | osNotExist
  | osPermission
  | osIsDir
  | osNotDir
  | osOther
  | join (e1 e2 : GoError)
  | wrapf (inner : GoError)
deriving DecidableEq, Repr

/-- Go's errors.Is(e, target): walks the unwrap tree of e looking for
the target sentinel. -/
def errIs : GoError → GoError → Bool
  | .join a b, t => errIs a t || errIs b t
  | .wrapf a, t => errIs a t
  | e, t => decide (e = t)

/-- errors.Is applied to a Go error that may be nil. -/
def errIsOpt : Option GoError → GoError → Bool
  | none, _ => false
  | some e, t => errIs e t

/-- A filesystem entry: a regular file with its bytes and mtime, or a
directory with the size and mtime that stat reports for it (on real
filesystems a directory's stat size is nonzero, e.g. 4096). -/
inductive FsEntry where
  | file (data : List Nat) (modTime : Int)
  | dir (statSize : Int) (modTime : Int)
deriving DecidableEq, Repr

/-- Whether the entry is a directory. -/
def FsEntry.isDirE : FsEntry → Bool
  | .file _ _ => false
  | .dir _ _ => true

/-- The part of os.FileInfo that filestore.go reads: Size, ModTime,
IsDir. -/
structure FileInfo where
  size : Int
  modTime : Int
  isDir : Bool
deriving DecidableEq, Repr

/-- The FileInfo that stat reports for an entry. -/
def infoOfEntry : FsEntry → FileInfo
  | .file d m => { size := (d.length : Int), modTime := m, isDir := false }
  | .dir sz m => { size := sz, modTime := m, isDir := true }

/-- The filesystem state: entries keyed by component path, plus the
paths on which stat fails with a non-not-exist OS error (permission
denied and the like), modelling the stat failure mode other than
absence. -/
structure Fs where
  entries : List (PathC × FsEntry)
  denied : List PathC
deriving DecidableEq, Repr

/-- First-match association-list lookup. -/
def lookupKey : List (PathC × FsEntry) → PathC → Option FsEntry
  | [], _ => none
  | kv :: rest, p => if kv.1 = p then some kv.2 else lookupKey rest p

/-- The entry at a path, if any. -/
def Fs.find (fs : Fs) (p : PathC) : Option FsEntry := lookupKey fs.entries p

/-- Overwrites the entry at a key, or appends it when absent. -/
def replaceEntry : List (PathC × FsEntry) → PathC → FsEntry → List (PathC × FsEntry)
  | [], k, e => [(k, e)]
  | kv :: rest, k, e =>
    if kv.1 = k then (k, e) :: rest else kv :: replaceEntry rest k e

/-- The filesystem with the entry at a key overwritten or added. -/
def Fs.insert (fs : Fs) (k : PathC) (e : FsEntry) : Fs :=
  { fs with entries := replaceEntry fs.entries k e }

/-- The filesystem has at most one entry per key. -/
def keysNodup (fs : Fs) : Prop := (fs.entries.map (fun kv => kv.1)).Nodup

instance (fs : Fs) : Decidable (keysNodup fs) := by
  unfold keysNodup
  infer_instance

/-- The length of the longest key. -/
def maxKeyLen : List (PathC × FsEntry) → Nat
  | [] => 0
  | kv :: rest => Nat.max kv.1.length (maxKeyLen rest)

/-- Depth bound of the filesystem. -/
def fsDepth (fs : Fs) : Nat := maxKeyLen fs.entries

/-- os.Stat: (FileInfo, error).  On a denied path it fails with a
permission error and a nil FileInfo; on a missing path with the OS
not-exist error; otherwise it reports the entry's info. -/
def osStat (fs : Fs) (p : PathC) : Option FileInfo × Option GoError :=
  if p ∈ fs.denied then (none, some .osPermission)
  else
    match Fs.find fs p with
    | some e => (some (infoOfEntry e), none)
    | none => (none, some .osNotExist)

/-- os.IsNotExist on a possibly-nil error. -/
def isNotExistOpt : Option GoError → Bool
  | some .osNotExist => true
  | _ => false

/-- The child name n such that k = dir ++ [n], if any. -/
def childNameOf (dir k : PathC) : Option String :=
  match k.drop dir.length with
  | [n] => if dir.isPrefixOf k then some n else none
  | _ => none

/-- The direct children of a directory path, with their entries, in
entry order (the model does not sort by name; no claim depends on
listing order, which the contract leaves unspecified). -/
def childrenOf (fs : Fs) (dir : PathC) : List (String × FsEntry) :=
  fs.entries.filterMap (fun kv => (childNameOf dir kv.1).map (fun n => (n, kv.2)))

/-- os.ReadDir: fails with not-exist when the path is absent and with a
not-a-directory error when it is a regular file. -/
def osReadDir (fs : Fs) (dir : PathC) : Except GoError (List (String × FsEntry)) :=
  match Fs.find fs dir with
  | some (.dir _ _) => .ok (childrenOf fs dir)
  | some (.file _ _) => .error .osNotDir
  | none => .error .osNotExist

/-- os.ReadFile. -/
def osReadFile (fs : Fs) (p : PathC) : Except GoError (List Nat) :=
  match Fs.find fs p with
  | some (.file d _) => .ok d
  | some (.dir _ _) => .error .osIsDir
  | none => .error .osNotExist

/-- os.WriteFile: create-or-overwrite; fails when the path holds a
directory. -/
def osWriteFile (fs : Fs) (p : PathC) (data : List Nat) : Except GoError Fs :=
  match Fs.find fs p with
  | some (.dir _ _) => .error .osIsDir
  | _ => .ok (Fs.insert fs p (.file data 0))

/-- Worker for os.MkdirAll: walks the components, creating missing
directories, failing when a regular file occupies a component. -/
def mkdirAllGo : Fs → PathC → List String → Except GoError Fs
  | fs, _, [] => .ok fs
  | fs, done, c :: cs =>
    match Fs.find fs (done ++ [c]) with
    | some (.file _ _) => .error .osNotDir
    | some (.dir _ _) => mkdirAllGo fs (done ++ [c]) cs
    | none => mkdirAllGo (Fs.insert fs (done ++ [c]) (.dir 0 0)) (done ++ [c]) cs

/-- os.MkdirAll. -/
def osMkdirAll (fs : Fs) (dir : PathC) : Except GoError Fs := mkdirAllGo fs [] dir

/-- Whether the parent directory of a path exists (the root always
does). -/
def parentExists (fs : Fs) (p : PathC) : Bool :=
  p.dropLast = [] ||
    (match Fs.find fs p.dropLast with
     | some (.dir _ _) => true
     | _ => false)

/-- Re-roots every entry under f to t and removes any entry previously
at t, for os.Rename's successful move. -/
def moveEntries (entries : List (PathC × FsEntry)) (f t : PathC) : List (PathC × FsEntry) :=
  entries.filterMap (fun kv =>
    if f.isPrefixOf kv.1 then some (t ++ kv.1.drop f.length, kv.2)
    else if kv.1 = t then none
    else some kv)

/-- os.Rename: fails when the source is absent or the destination's
parent is missing; overwrites a regular-file destination; fails when
the destination is a directory (the POSIX corner of renaming a
directory over an empty directory is modelled as an error; no caller
in filestore.go exercises it). -/
def osRename (fs : Fs) (f t : PathC) : Except GoError Fs :=
  match Fs.find fs f with
  | none => .error .osNotExist
  | some src =>
    if parentExists fs t = false then .error .osNotExist
    else
      match Fs.find fs t, src with
      | some (.dir _ _), _ => .error .osIsDir
      | some (.file _ _), .dir _ _ => .error .osNotDir
      | _, _ => .ok { fs with entries := moveEntries fs.entries f t }

/-- os.Remove: removes a file or an empty directory. -/
def osRemove (fs : Fs) (p : PathC) : Except GoError Fs :=
  match Fs.find fs p with
  | none => .error .osNotExist
  | some (.file _ _) =>
    .ok { fs with entries := fs.entries.filter (fun kv => kv.1 ≠ p) }
  | some (.dir _ _) =>
    if childrenOf fs p = [] then
      .ok { fs with entries := fs.entries.filter (fun kv => kv.1 ≠ p) }
    else .error .osOther

/-- FileObjectStore: local file storage rooted at BaseURI. -/
structure FileObjectStore where
  BaseURI : Path
deriving DecidableEq, Repr

/-- filepath.Join(s.BaseURI.Raw, location.Raw) at the component level. -/
def resolvePath (s : FileObjectStore) (location : Path) : PathC :=
  comps s.BaseURI.Raw ++ comps location.Raw

/-- The Go zero value of storage.ObjectMeta. -/
def zeroMeta : ObjectMeta := { Location := { Raw := "" }, Size := 0, LastModified := 0 }

/-- FileObjectStore.Put: MkdirAll on the parent of the resolved path,
then WriteFile.  The filesystem is threaded explicitly; the returned
error is Put's Go return value.  Note the directories created by
MkdirAll persist even when the subsequent WriteFile fails. -/
def FileObjectStore.Put (s : FileObjectStore) (fs : Fs) (location : Path)
    (bytes : List Nat) : Fs × Option GoError :=
  let writePath := resolvePath s location
  match osMkdirAll fs writePath.dropLast with
  | .error e => (fs, some e)
  | .ok fs1 =>
    match osWriteFile fs1 writePath bytes with
    | .error e => (fs1, some e)
    | .ok fs2 => (fs2, none)

/-- FileObjectStore.Get: os.ReadFile on the resolved path; the raw OS
error is returned unwrapped, exactly as in the Go source. -/
def FileObjectStore.Get (s : FileObjectStore) (fs : Fs) (location : Path) :
    Except GoError (List Nat) :=
  osReadFile fs (resolvePath s location)

/-- FileObjectStore.Head.  The Go code stats the resolved path, maps a
not-exist failure to errors.Join(ErrorObjectDoesNotExist, err), and
otherwise reads info.Size()/ModTime()/IsDir() without a nil check:
when stat failed with any other error the FileInfo is nil and the Go
code panics, modelled here as the result none.  Note Location is set
to the full resolved path string (filePath), not a store-relative
path. -/
def FileObjectStore.Head (s : FileObjectStore) (fs : Fs) (location : Path) :
    Option (ObjectMeta × Option GoError) :=
  let filePath := resolvePath s location
  match osStat fs filePath with
  | (_, some e) =>
    if e = .osNotExist then
      some (zeroMeta, some (.join .objectDoesNotExist e))
    else none
  | (some info, none) =>
    let meta : ObjectMeta :=
      { Size := info.size
        Location := { Raw := strOfComps filePath }
        LastModified := info.modTime }
    if info.isDir then some (meta, some .objectIsDir) else some (meta, none)
  | (none, none) => none

/-- FileObjectStore.Rename: os.Rename on the base-joined paths
(storage.Path.Join is, per the spec, the normalized concatenation,
i.e. resolvePath); any failure is wrapped as
errors.Join(ErrorObjectDoesNotExist, err). -/
def FileObjectStore.Rename (s : FileObjectStore) (fs : Fs) (f t : Path) :
    Fs × Option GoError :=
  match osRename fs (resolvePath s f) (resolvePath s t) with
  | .error e => (fs, some (.join .objectDoesNotExist e))
  | .ok fs1 => (fs1, none)

/-- FileObjectStore.RenameIfNotExists: Head on the destination; when
that does not report ErrorObjectDoesNotExist (i.e. the destination
exists, or Head returned nil, or it reported ObjectIsDir) fail with the
fmt.Errorf-wrapped ErrorVersionAlreadyExists; otherwise fall through to
Rename (the trailing if err != nil { return err }; return nil is the
identity on Rename's result).  A Head panic propagates as none. -/
def FileObjectStore.RenameIfNotExists (s : FileObjectStore) (fs : Fs)
    (f t : Path) : Option (Fs × Option GoError) :=
  match FileObjectStore.Head s fs t with
  | none => none
  | some (_, herr) =>
    if (errIsOpt herr .objectDoesNotExist) = false then
      some (fs, some (.wrapf .versionAlreadyExists))
    else
      some (FileObjectStore.Rename s fs f t)

/-- FileObjectStore.Delete: os.Remove, wrapping any failure with
ErrorDeleteObject. -/
def FileObjectStore.Delete (s : FileObjectStore) (fs : Fs) (location : Path) :
    Fs × Option GoError :=
  match osRemove fs (resolvePath s location) with
  | .error e => (fs, some (.join .deleteObject e))
  | .ok fs1 => (fs1, none)

/-- objectMetaFromFileInfo: combine the parent directory and the name,
trim the prefix off the front, and, for directories, force size 0 and
a trailing separator on the location (component strings never end in a
separator themselves, so the Go if-not-already-separated guard always
appends; for an empty component list the string form is already just
"/", matching path.Join's cleaning of "/"). -/
def objectMetaFromFileInfo (info : FileInfo) (name : PathC) (isDir : Bool)
    (parentDir trim : PathC) : ObjectMeta :=
  let location := trimPrefixC (parentDir ++ name) trim
  if isDir then
    { Size := 0
      Location := { Raw := strOfComps location ++ "/" }
      LastModified := info.modTime }
  else
    { Size := info.size
      Location := { Raw := strOfComps location }
      LastModified := info.modTime }

/-- objectMetaFromDirEntry: the DirEntry's Info() cannot fail in this
model, so the error path of the Go helper is not represented. -/
def objectMetaFromDirEntry (c : String × FsEntry) (parentDir trim : PathC) :
    ObjectMeta :=
  objectMetaFromFileInfo (infoOfEntry c.2) [c.1] (FsEntry.isDirE c.2) parentDir trim

/-- listFilesInDirRecursively, fuel-bounded.  One unit of fuel is spent
per directory level, so any fuel exceeding the remaining depth of the
tree is enough; none means the fuel ran out (never reached from the
wrapper below).  ReadDir's not-exist error yields an empty successful
result; any other ReadDir error propagates.  For each entry whose name
starts with pfx (an empty pfx matching everything) an ObjectMeta is
emitted, and a directory entry is additionally recursed into with the
empty name filter, its contents spliced in after it; the leftmost
failing child's error wins, as in the Go loop. -/
def listFuelCore (fs : Fs) (b : PathC) :
    Nat → PathC → String → Option (Except GoError (List ObjectMeta))
  | 0, _, _ => none
  | fuel + 1, dir, pfx =>
    match osReadDir fs dir with
    | .error e =>
      if e = .osNotExist then some (.ok []) else some (.error e)
    | .ok results =>
      results.foldr
        (fun c acc =>
          if pfx = "" || hasPrefixStr c.1 pfx then
            let meta := objectMetaFromDirEntry c dir b
            if FsEntry.isDirE c.2 then
              match listFuelCore fs b fuel (dir ++ [c.1]) "" with
              | none => none
              | some (.error e) => some (.error e)
              | some (.ok sub) =>
                match acc with
                | none => none
                | some (.error e) => some (.error e)
                | some (.ok tail) => some (.ok (meta :: (sub ++ tail)))
            else
              match acc with
              | none => none
              | some (.error e) => some (.error e)
              | some (.ok tail) => some (.ok (meta :: tail))
          else acc)
        (some (.ok []))

/-- listFilesInDirRecursively: the fuel fsDepth fs + 2 strictly exceeds
the remaining depth from any starting directory, so the fuel never runs
out (the getD default is unreachable). -/
def listFilesInDirRecursively (fs : Fs) (b dir : PathC) (pfx : String) :
    Except GoError (List ObjectMeta) :=
  (listFuelCore fs b (fsDepth fs + 2) dir pfx).getD (.error .osOther)

/-- The successful result of a listing, or the empty list. -/
def okD (r : Except GoError (List ObjectMeta)) : List ObjectMeta :=
  match r with
  | .ok l => l
  | .error _ => []

/-- Concatenation of the images of a list under a list-valued
function. -/
def catList (f : α → List β) : List α → List β
  | [] => []
  | a :: l => f a ++ catList f l

/-- The location of m is the base-stripped resolved path of an object
that actually exists in the store: there is an entry at a b-prefixed
component path k whose file/directory kind matches the
trailing-separator convention, and m's Location is exactly k with the
b components removed from its front.  Tying k to a real entry is what
makes this express store-relativity: an unstripped location such as
the full resolved path cannot satisfy it unless the store separately
contains an object at that doubled path. -/
def strippedLocOf (fs : Fs) (b : PathC) (m : ObjectMeta) : Prop :=
  ∃ k e, Fs.find fs k = some e ∧ b <+: k ∧
    m.Location.Raw =
      (if FsEntry.isDirE e = true then strOfComps (k.drop b.length) ++ "/"
       else strOfComps (k.drop b.length))

/-- FileObjectStore.List.  prefix.Raw is split into its directory part
and file-name-prefix part (filepath.Split); the directory part is
joined under BaseURI and listed recursively with the name filter; any
listing failure is wrapped with ErrorListObjects.  When the prefix had
a nonempty directory part (the raw string contains a separator) and an
empty name part, the directory itself is additionally stat'ed and, if
present, appended as a result (a not-exist stat is silently ignored;
any other stat failure is wrapped with ErrorListObjects).  The Go
trailing-separator fixups on fullDir and baseURI exist to make the
string-level ReadDir match and TrimPrefix exact; at the component
level both are identities. -/
def FileObjectStore.List (s : FileObjectStore) (fs : Fs) (pfx : Path) :
    Except GoError (List ObjectMeta) :=
  let dirC := splitDirComps pfx.Raw
  let filePart := splitFilePart pfx.Raw
  let fullDir := comps s.BaseURI.Raw ++ dirC
  let baseC := comps s.BaseURI.Raw
  match listFilesInDirRecursively fs baseC fullDir filePart with
  | .error e => .error (.join .listObjects e)
  | .ok files =>
    if hasSlash pfx.Raw = true ∧ filePart = "" then
      match osStat fs (comps s.BaseURI.Raw ++ dirC) with
      | (_, some e) =>
        if e = .osNotExist then .ok files
        else .error (.join .listObjects e)
      | (some info, none) =>
        .ok (files ++ [objectMetaFromFileInfo info dirC true [] baseC])
      | (none, none) => .ok files
    else .ok files

/-- One in-flight RenameIfNotExists call, split at its two observable
steps: the Head existence check and the Rename. -/
inductive RnsPhase where
  | start
  | renaming
  | done (err : Option GoError)
deriving DecidableEq, Repr

/-- A process running RenameIfNotExists src dst. -/
structure RnsProc where
  src : Path
  dst : Path
  phase : RnsPhase
deriving DecidableEq, Repr

/-- One atomic step of a RenameIfNotExists call: from start, perform
the Head check and either fail with the wrapped VersionAlreadyExists
or move on to the rename; from renaming, perform the Rename and finish
with its error.  none models a Head panic. -/
def rnsStep (s : FileObjectStore) (fs : Fs) (p : RnsProc) :
    Option (Fs × RnsProc) :=
  match p.phase with
  | .start =>
    match FileObjectStore.Head s fs p.dst with
    | none => none
    | some (_, herr) =>
      if (errIsOpt herr .objectDoesNotExist) = false then
        some (fs, { p with phase := .done (some (.wrapf .versionAlreadyExists)) })
      else some (fs, { p with phase := .renaming })
  | .renaming =>
    match FileObjectStore.Rename s fs p.src p.dst with
    | (fs1, e) => some (fs1, { p with phase := .done e })
  | .done _ => some (fs, p)

/-- Runs two concurrent RenameIfNotExists calls under an explicit
interleaving: true schedules a step of the first process, false a step
of the second. -/
def runTwo (s : FileObjectStore) :
    List Bool → Fs → RnsProc → RnsProc → Option (Fs × RnsProc × RnsProc)
  | [], fs, a, b => some (fs, a, b)
  | c :: rest, fs, a, b =>
    if c then
      match rnsStep s fs a with
      | none => none
      | some (fs1, a1) => runTwo s rest fs1 a1 b
    else
      match rnsStep s fs b with
      | none => none
      | some (fs1, b1) => runTwo s rest fs1 a b1

/-- Equality of Except results is decidable when both components are. -/
def exceptDecEq {ε α : Type} [DecidableEq ε] [DecidableEq α] :
    DecidableEq (Except ε α)
  | .error a, .error b =>
    if h : a = b then .isTrue (by rw [h])
    else .isFalse (fun hc => h (by injection hc))
  | .error _, .ok _ => .isFalse (fun hc => Except.noConfusion hc)
  | .ok _, .error _ => .isFalse (fun hc => Except.noConfusion hc)
  | .ok a, .ok b =>
    if h : a = b then .isTrue (by rw [h])
    else .isFalse (fun hc => h (by injection hc))

instance {ε α : Type} [DecidableEq ε] [DecidableEq α] : DecidableEq (Except ε α) :=
  exceptDecEq

/-- A store rooted at "store", shared by the concrete instances below. -/
def demoStore : FileObjectStore := { BaseURI := { Raw := "store" } }

/-- Files "a/x" and "a/b/y" under the store root, for the directory
listing convention. -/
def fsListDemo : Fs :=
  { entries :=
      [(["store"], .dir 4096 1),
       (["store", "a"], .dir 4096 2),
       (["store", "a", "x"], .file [10] 3),
       (["store", "a", "b"], .dir 4096 4),
       (["store", "a", "b", "y"], .file [20, 21] 5)]
    denied := [] }

/-- Files "abc.txt", "abd.txt" and "xyz.txt" in directory ["s"], for
top-level-only name filtering. -/
def fsAbDemo : Fs :=
  { entries :=
      [(["s"], .dir 0 0),
       (["s", "abc.txt"], .file [1] 1),
       (["s", "abd.txt"], .file [2] 2),
       (["s", "xyz.txt"], .file [3] 3)]
    denied := [] }

/-- Two staged commit files "sa" and "sb", destination "p" absent. -/
def fsRaceDemo : Fs :=
  { entries :=
      [(["store"], .dir 4096 0),
       (["store", "sa"], .file [1] 0),
       (["store", "sb"], .file [2] 0)]
    denied := [] }

/-- Process A of the race: RenameIfNotExists("sa", "p"). -/
def procADemo : RnsProc :=
  { src := { Raw := "sa" }, dst := { Raw := "p" }, phase := .start }

/-- Process B of the race: RenameIfNotExists("sb", "p"). -/
def procBDemo : RnsProc :=
  { src := { Raw := "sb" }, dst := { Raw := "p" }, phase := .start }

/-- A directory at "d" and files at "f" and "src" under the store root. -/
def fsDirDemo : Fs :=
  { entries :=
      [(["store"], .dir 4096 0),
       (["store", "d"], .dir 4096 0),
       (["store", "f"], .file [9] 7),
       (["store", "src"], .file [5] 8)]
    denied := [] }

/-- A store state on which stat of "locked" fails with a permission
error rather than not-exist. -/
def fsDeniedDemo : Fs :=
  { entries := [(["store"], .dir 4096 0)]
    denied := [["store", "locked"]] }

theorem lookupKey_replaceEntry (l : List (PathC × FsEntry)) (k : PathC) (e : FsEntry) :
    lookupKey (replaceEntry l k e) k = some e := by
  induction l with
  | nil => simp [replaceEntry, lookupKey]
  | cons kv rest ih =>
    by_cases h : kv.1 = k
    · simp [replaceEntry, h, lookupKey]
    · simp [replaceEntry, h, lookupKey, ih]

theorem find_insert (fs : Fs) (k : PathC) (e : FsEntry) :
    Fs.find (Fs.insert fs k e) k = some e := by
  simp [Fs.find, Fs.insert, lookupKey_replaceEntry]

theorem isPrefixOf_self (l : PathC) : l.isPrefixOf l = true := by
  simp [List.isPrefixOf_iff_prefix]

theorem lookupKey_some_mem (l : List (PathC × FsEntry)) (k : PathC) (e : FsEntry)
    (h : lookupKey l k = some e) : (k, e) ∈ l := by
  induction l with
  | nil => simp [lookupKey] at h
  | cons kv rest ih =>
    by_cases hk : kv.1 = k
    · have he : kv.2 = e := by simpa [lookupKey, hk] using h
      have : kv = (k, e) := by
        cases kv
        simp_all
      rw [← this]
      exact List.mem_cons_self _ _
    · have h1 : lookupKey rest k = some e := by simpa [lookupKey, hk] using h
      exact List.mem_cons_of_mem _ (ih h1)

theorem mem_maxKeyLen (l : List (PathC × FsEntry)) (kv : PathC × FsEntry)
    (h : kv ∈ l) : kv.1.length ≤ maxKeyLen l := by
  induction l with
  | nil => simp at h
  | cons a rest ih =>
    rcases List.mem_cons.mp h with h1 | h1
    · rw [h1]
      exact Nat.le_max_left _ _
    · exact Nat.le_trans (ih h1) (Nat.le_max_right _ _)

theorem find_length_le (fs : Fs) (k : PathC) (e : FsEntry)
    (h : Fs.find fs k = some e) : k.length ≤ fsDepth fs :=
  mem_maxKeyLen _ _ (lookupKey_some_mem _ _ _ h)

theorem lookupKey_of_mem_nodup (l : List (PathC × FsEntry)) (kv : PathC × FsEntry)
    (hn : (l.map (fun x => x.1)).Nodup) (h : kv ∈ l) :
    lookupKey l kv.1 = some kv.2 := by
  induction l with
  | nil => simp at h
  | cons a rest ih =>
    rcases List.mem_cons.mp h with h1 | h1
    · rw [h1]
      simp [lookupKey]
    · have ha : a.1 ≠ kv.1 := by
        intro he
        have hmem : kv.1 ∈ rest.map (fun x => x.1) :=
          List.mem_map.mpr ⟨kv, h1, rfl⟩
        rw [List.map_cons] at hn
        exact (List.nodup_cons.mp hn).1 (he ▸ hmem)
      have hrest : (rest.map (fun x => x.1)).Nodup := by
        rw [List.map_cons] at hn
        exact (List.nodup_cons.mp hn).2
      simp [lookupKey, ha, ih hrest h1]

theorem childNameOf_eq (dir k : PathC) (n : String)
    (h : childNameOf dir k = some n) : k = dir ++ [n] := by
  unfold childNameOf at h
  split at h
  next x hd =>
    by_cases hp : dir.isPrefixOf k = true
    · rw [if_pos hp] at h
      have hx : x = n := by simpa using h
      have hpre := List.isPrefixOf_iff_prefix.mp hp
      have hk := List.prefix_iff_eq_append.mp hpre
      rw [hd, hx] at hk
      exact hk.symm
    · rw [if_neg hp] at h
      exact absurd h (by simp)
  next => exact absurd h (by simp)

theorem mem_childrenOf (fs : Fs) (dir : PathC) (c : String × FsEntry)
    (h : c ∈ childrenOf fs dir) : (dir ++ [c.1], c.2) ∈ fs.entries := by
  unfold childrenOf at h
  rcases List.mem_filterMap.mp h with ⟨kv, hmem, heq⟩
  rcases ho : childNameOf dir kv.1 with - | n
  · rw [ho] at heq
    simp at heq
  · rw [ho] at heq
    have hc : (n, kv.2) = c := by simpa using heq
    have hk := childNameOf_eq dir kv.1 n ho
    have h1 : c.1 = n := by rw [← hc]
    have h2 : c.2 = kv.2 := by rw [← hc]
    rw [h1, h2, ← hk]
    exact hmem

theorem mem_catList {α β : Type} {f : α → List β} {l : List α} {x : β} :
    x ∈ catList f l ↔ ∃ a ∈ l, x ∈ f a := by
  induction l with
  | nil => simp [catList]
  | cons a rest ih => simp [catList, List.mem_append, ih]

theorem catList_congr {α β : Type} {f g : α → List β} {l : List α}
    (h : ∀ a ∈ l, f a = g a) : catList f l = catList g l := by
  induction l with
  | nil => rfl
  | cons a rest ih =>
    simp only [catList, h a (List.mem_cons_self _ _)]
    rw [ih (fun a ha => h a (List.mem_cons_of_mem _ ha))]

theorem trimPrefixC_of_proper (k b : PathC) (hp : b <+: k) (hne : b ≠ k) :
    trimPrefixC k b = k.drop b.length := by
  unfold trimPrefixC
  rw [if_pos ⟨hne, List.isPrefixOf_iff_prefix.mpr hp⟩]

/-- After moving the subtree at f onto an absent t, the entry found at
t is the entry formerly found at f. -/
theorem lookupKey_moveEntries (l : List (PathC × FsEntry)) (f t : PathC)
    (h : lookupKey l t = none) :
    lookupKey (moveEntries l f t) t = lookupKey l f := by
  induction l with
  | nil => simp [moveEntries, lookupKey]
  | cons kv rest ih =>
    have hkt : kv.1 ≠ t := by
      intro he
      simp [lookupKey, he] at h
    have hrest : lookupKey rest t = none := by
      simpa [lookupKey, if_neg hkt] using h
    simp only [moveEntries, List.filterMap_cons] at ih ⊢
    by_cases hpf : f <+: kv.1
    · have hpf' : f.isPrefixOf kv.1 = true := List.isPrefixOf_iff_prefix.mpr hpf
      rw [if_pos hpf']
      by_cases hkf : kv.1 = f
      · have hdrop : kv.1.drop f.length = [] := by
          rw [hkf]; exact List.drop_length f
        rw [hdrop]
        simp [lookupKey, hkf]
      · have hne : t ++ kv.1.drop f.length ≠ t := by
          intro he
          have hlt : f.length < kv.1.length := by
            rcases Nat.lt_or_ge f.length kv.1.length with h1 | h1
            · exact h1
            · exact absurd (hpf.eq_of_length (Nat.le_antisymm hpf.length_le h1)).symm hkf
          have hlen := congrArg List.length he
          simp [List.length_drop] at hlen
          omega
        simp only [lookupKey, if_neg hne, if_neg hkf]
        exact ih hrest
    · have hpf' : ¬ f.isPrefixOf kv.1 = true := by
        simpa [List.isPrefixOf_iff_prefix] using hpf
      have hkf : kv.1 ≠ f := by
        intro he; rw [he] at hpf; exact hpf (List.prefix_refl f)
      rw [if_neg hpf', if_neg hkt]
      simp only [lookupKey, if_neg hkt, if_neg hkf]
      exact ih hrest

/-- Master listing equation: starting from an existing directory, the
fuel-bounded recursive listing succeeds whenever the fuel exceeds the
remaining tree depth, and its value is the flattening, over the
directory's children, of: nothing when the child's name fails the
top-level name filter; otherwise the child's ObjectMeta followed, for
a directory child, by that subdirectory's own full listing under the
empty filter. -/
theorem listFuelCore_eq_catList (fs : Fs) (b : PathC) (hn : keysNodup fs) :
    ∀ meas fuel dir pfx sz mt,
      fsDepth fs + 1 - dir.length = meas →
      meas < fuel →
      Fs.find fs dir = some (.dir sz mt) →
      listFuelCore fs b fuel dir pfx =
        some (.ok (catList (fun c =>
          if pfx = "" || hasPrefixStr c.1 pfx then
            objectMetaFromDirEntry c dir b ::
              (if FsEntry.isDirE c.2 then
                okD (listFilesInDirRecursively fs b (dir ++ [c.1]) "")
               else [])
          else []) (childrenOf fs dir))) := by
  intro meas
  induction meas with
  | zero =>
    intro fuel dir pfx sz mt hm hlt hfind
    exfalso
    have := find_length_le fs dir _ hfind
    omega
  | succ m ih =>
    intro fuel dir pfx sz mt hm hlt hfind
    have hdirlen : dir.length ≤ fsDepth fs := find_length_le fs dir _ hfind
    cases fuel with
    | zero => omega
    | succ fuel =>
      simp only [listFuelCore, osReadDir, hfind]
      have hsub : ∀ c ∈ childrenOf fs dir, (dir ++ [c.1], c.2) ∈ fs.entries :=
        fun c hc => mem_childrenOf fs dir c hc
      generalize childrenOf fs dir = rs at hsub ⊢
      induction rs with
      | nil => simp [catList]
      | cons c rest ihr =>
        have hc : (dir ++ [c.1], c.2) ∈ fs.entries := hsub c (List.mem_cons_self _ _)
        have hrest : ∀ c ∈ rest, (dir ++ [c.1], c.2) ∈ fs.entries :=
          fun c hx => hsub c (List.mem_cons_of_mem _ hx)
        simp only [List.foldr_cons]
        rw [ihr hrest]
        cases hcond : (pfx = "" || hasPrefixStr c.1 pfx : Bool) with
        | false => simp [hcond, catList]
        | true =>
          rcases hent : c.2 with ⟨d0, m0⟩ | ⟨sz0, mt0⟩
          · simp [hcond, hent, catList, FsEntry.isDirE]
          · have hfindsub : Fs.find fs (dir ++ [c.1]) = some (.dir sz0 mt0) := by
              have hl := lookupKey_of_mem_nodup fs.entries (dir ++ [c.1], c.2) hn hc
              rw [hent] at hl
              exact hl
            have hsublen : (dir ++ [c.1]).length ≤ fsDepth fs :=
              find_length_le fs _ _ hfindsub
            have hmsub : fsDepth fs + 1 - (dir ++ [c.1]).length = m := by
              rw [List.length_append]
              simp only [List.length_cons, List.length_nil]
              omega
            have h1 := ih fuel (dir ++ [c.1]) "" sz0 mt0 hmsub (by omega) hfindsub
            have h2 := ih (fsDepth fs + 2) (dir ++ [c.1]) "" sz0 mt0 hmsub
              (by simp at hmsub; omega) hfindsub
            have hwrap : listFilesInDirRecursively fs b (dir ++ [c.1]) "" =
                .ok (catList (fun c2 =>
                  if ("" : String) = "" || hasPrefixStr c2.1 "" then
                    objectMetaFromDirEntry c2 (dir ++ [c.1]) b ::
                      (if FsEntry.isDirE c2.2 then
                        okD (listFilesInDirRecursively fs b ((dir ++ [c.1]) ++ [c2.1]) "")
                       else [])
                  else []) (childrenOf fs (dir ++ [c.1]))) := by
              unfold listFilesInDirRecursively
              rw [h2]
              rfl
            simp only [hcond, hent, FsEntry.isDirE, h1]
            simp [catList, hcond, hent, FsEntry.isDirE, hwrap, okD]

/-- The wrapper form of the master listing equation. -/
theorem listFiles_eq_catList (fs : Fs) (b : PathC) (hn : keysNodup fs)
    (dir : PathC) (pfx : String) (sz mt : Int)
    (hfind : Fs.find fs dir = some (.dir sz mt)) :
    listFilesInDirRecursively fs b dir pfx =
      .ok (catList (fun c =>
        if pfx = "" || hasPrefixStr c.1 pfx then
          objectMetaFromDirEntry c dir b ::
            (if FsEntry.isDirE c.2 then
              okD (listFilesInDirRecursively fs b (dir ++ [c.1]) "")
             else [])
        else []) (childrenOf fs dir)) := by
  have h := listFuelCore_eq_catList fs b hn (fsDepth fs + 1 - dir.length)
    (fsDepth fs + 2) dir pfx sz mt rfl (by omega) hfind
  show (listFuelCore fs b (fsDepth fs + 2) dir pfx).getD (.error .osOther) = _
  rw [h]
  rfl

/-- Listing a directory that does not exist returns ok-empty. -/
theorem listFiles_of_find_none (fs : Fs) (b dir : PathC) (pfx : String)
    (h : Fs.find fs dir = none) :
    listFilesInDirRecursively fs b dir pfx = .ok [] := by
  show (listFuelCore fs b (fsDepth fs + 2) dir pfx).getD (.error .osOther) = _
  have h2 : listFuelCore fs b (fsDepth fs + 2) dir pfx = some (.ok []) := by
    show listFuelCore fs b (fsDepth fs + 1 + 1) dir pfx = some (.ok [])
    simp [listFuelCore, osReadDir, h]
  rw [h2]
  rfl

/-- Listing a path that holds a regular file fails with the
not-a-directory OS error. -/
theorem listFiles_of_find_file (fs : Fs) (b dir : PathC) (pfx : String)
    (d : List Nat) (m : Int)
    (h : Fs.find fs dir = some (.file d m)) :
    listFilesInDirRecursively fs b dir pfx = .error .osNotDir := by
  show (listFuelCore fs b (fsDepth fs + 2) dir pfx).getD (.error .osOther) = _
  have h2 : listFuelCore fs b (fsDepth fs + 2) dir pfx =
      some (.error .osNotDir) := by
    show listFuelCore fs b (fsDepth fs + 1 + 1) dir pfx = some (.error .osNotDir)
    simp [listFuelCore, osReadDir, h]
  rw [h2]
  rfl

/-- Unfolding of List when the recursive listing succeeds. -/
theorem List_unfold_ok (s : FileObjectStore) (fs : Fs) (pfxP : Path)
    (files : List ObjectMeta)
    (h : listFilesInDirRecursively fs (comps s.BaseURI.Raw)
      (comps s.BaseURI.Raw ++ splitDirComps pfxP.Raw) (splitFilePart pfxP.Raw) =
      .ok files) :
    FileObjectStore.List s fs pfxP =
      (if hasSlash pfxP.Raw = true ∧ splitFilePart pfxP.Raw = "" then
        match osStat fs (comps s.BaseURI.Raw ++ splitDirComps pfxP.Raw) with
        | (_, some e) =>
          if e = .osNotExist then .ok files
          else .error (.join .listObjects e)
        | (some info, none) =>
          .ok (files ++ [objectMetaFromFileInfo info (splitDirComps pfxP.Raw)
            true [] (comps s.BaseURI.Raw)])
        | (none, none) => .ok files
      else .ok files) := by
  simp only [FileObjectStore.List, h]

/-- Unfolding of List when the recursive listing fails. -/
theorem List_unfold_error (s : FileObjectStore) (fs : Fs) (pfxP : Path)
    (e : GoError)
    (h : listFilesInDirRecursively fs (comps s.BaseURI.Raw)
      (comps s.BaseURI.Raw ++ splitDirComps pfxP.Raw) (splitFilePart pfxP.Raw) =
      .error e) :
    FileObjectStore.List s fs pfxP = .error (.join .listObjects e) := by
  simp only [FileObjectStore.List, h]

/-- Every ObjectMeta produced by the recursive listing below a
b-prefixed directory is the b-stripped resolved path of an entry of
the store. -/
theorem mem_listFiles_strippedFrom (fs : Fs) (b : PathC) (hn : keysNodup fs) :
    ∀ meas dir pfx sz mt,
      fsDepth fs + 1 - dir.length = meas →
      Fs.find fs dir = some (.dir sz mt) →
      b <+: dir →
      ∀ m ∈ okD (listFilesInDirRecursively fs b dir pfx),
        strippedLocOf fs b m := by
  intro meas
  induction meas with
  | zero =>
    intro dir pfx sz mt hm hfind hb
    exfalso
    have := find_length_le fs dir _ hfind
    omega
  | succ n ih =>
    intro dir pfx sz mt hm hfind hb m hmem
    rw [listFiles_eq_catList fs b hn dir pfx sz mt hfind] at hmem
    simp only [okD] at hmem
    rcases mem_catList.mp hmem with ⟨c, hcmem, hcf⟩
    have hcentry : (dir ++ [c.1], c.2) ∈ fs.entries := mem_childrenOf fs dir c hcmem
    by_cases hcond : (pfx = "" || hasPrefixStr c.1 pfx : Bool) = true
    · rw [if_pos hcond] at hcf
      have hpre : b <+: dir ++ [c.1] := hb.trans (List.prefix_append _ _)
      have hne : b ≠ dir ++ [c.1] := by
        intro he
        have h1 := hb.length_le
        have h2 := congrArg List.length he
        simp [List.length_append] at h2
        omega
      rcases List.mem_cons.mp hcf with hm1 | hm2
      · have hfindk : Fs.find fs (dir ++ [c.1]) = some c.2 :=
          lookupKey_of_mem_nodup fs.entries (dir ++ [c.1], c.2) hn hcentry
        refine ⟨dir ++ [c.1], c.2, hfindk, hpre, ?_⟩
        rw [hm1]
        simp only [objectMetaFromDirEntry, objectMetaFromFileInfo,
          trimPrefixC_of_proper _ _ hpre hne]
        by_cases hdir : FsEntry.isDirE c.2 = true <;> simp [hdir]
      · by_cases hdir : FsEntry.isDirE c.2 = true
        · rw [if_pos hdir] at hm2
          rcases hent : c.2 with ⟨d0, m0⟩ | ⟨sz0, mt0⟩
          · rw [hent] at hdir
            exact absurd hdir (by simp [FsEntry.isDirE])
          · have hfindsub : Fs.find fs (dir ++ [c.1]) = some (.dir sz0 mt0) := by
              have hl := lookupKey_of_mem_nodup fs.entries (dir ++ [c.1], c.2) hn hcentry
              rw [hent] at hl
              exact hl
            have hsublen : (dir ++ [c.1]).length ≤ fsDepth fs :=
              find_length_le fs _ _ hfindsub
            have hdirlen : dir.length ≤ fsDepth fs := find_length_le fs dir _ hfind
            have hmsub : fsDepth fs + 1 - (dir ++ [c.1]).length = n := by
              rw [List.length_append]
              simp only [List.length_cons, List.length_nil]
              omega
            exact ih (dir ++ [c.1]) "" sz0 mt0 hmsub hfindsub hpre m hm2
        · rw [if_neg hdir] at hm2
          simp at hm2
    · rw [if_neg hcond] at hcf
      simp at hcf

/-- Claim C1: if an object (file or directory) already exists at the
destination, RenameIfNotExists fails with an error matching
VersionAlreadyExists and the state — in particular the object at
from — is untouched and still retrievable; if nothing exists at the
destination, it returns exactly what Rename returns.  The hypothesis
excludes the stat failure mode covered by claim C10. -/
theorem c1_renameIfNotExists_semantics (s : FileObjectStore) (fs : Fs) (f t : Path)
    (hd : resolvePath s t ∉ fs.denied) :
    ((∃ e, Fs.find fs (resolvePath s t) = some e) →
      FileObjectStore.RenameIfNotExists s fs f t =
        some (fs, some (.wrapf .versionAlreadyExists)) ∧
      errIs (.wrapf .versionAlreadyExists) .versionAlreadyExists = true ∧
      (∀ d m, Fs.find fs (resolvePath s f) = some (.file d m) →
        FileObjectStore.Get s fs f = .ok d)) ∧
    (Fs.find fs (resolvePath s t) = none →
      FileObjectStore.RenameIfNotExists s fs f t =
        some (FileObjectStore.Rename s fs f t)) := by
  constructor
  · rintro ⟨e, he⟩
    refine ⟨?_, rfl, ?_⟩
    · simp only [FileObjectStore.RenameIfNotExists, FileObjectStore.Head, osStat,
        if_neg hd, he]
      rcases e with ⟨d, m⟩ | ⟨sz, m⟩ <;> simp [errIsOpt, errIs, infoOfEntry]
    · intro d m hf
      simp [FileObjectStore.Get, osReadFile, hf]
  · intro hn
    simp only [FileObjectStore.RenameIfNotExists, FileObjectStore.Head, osStat,
      if_neg hd, hn]
    simp [errIsOpt, errIs]

/-- Witness for C1 at a concrete store: "d" exists, so the conditional
rename fails with the wrapped VersionAlreadyExists and the state is
unchanged. -/
theorem c1_witness :
    FileObjectStore.RenameIfNotExists demoStore fsDirDemo { Raw := "src" } { Raw := "d" } =
      some (fsDirDemo, some (.wrapf .versionAlreadyExists)) :=
  ((c1_renameIfNotExists_semantics demoStore fsDirDemo { Raw := "src" } { Raw := "d" }
    (by decide)).1 ⟨.dir 4096 0, by decide⟩).1

/-- Counterexample for C2: with destination "p" initially absent, the
interleaving check-A, check-B, rename-A, rename-B lets both
RenameIfNotExists calls succeed (both finish with a nil error), and
the surviving content at "p" is the second renamer's bytes — the
check-then-act window is not atomic. -/
theorem c2_counterexample :
    Fs.find fsRaceDemo (resolvePath demoStore { Raw := "p" }) = none ∧
    runTwo demoStore [true, false, true, false] fsRaceDemo procADemo procBDemo =
      some ({ entries := [(["store"], .dir 4096 0), (["store", "p"], .file [2] 0)],
              denied := [] },
            { src := { Raw := "sa" }, dst := { Raw := "p" }, phase := .done none },
            { src := { Raw := "sb" }, dst := { Raw := "p" }, phase := .done none }) ∧
    FileObjectStore.Get demoStore
      { entries := [(["store"], .dir 4096 0), (["store", "p"], .file [2] 0)],
        denied := [] } { Raw := "p" } = .ok [2] := by
  decide

/-- Claim C2 amended: when the two RenameIfNotExists calls are
serialized (the first completes before the second starts), exactly one
succeeds — the first — and the second fails with VersionAlreadyExists,
the final content at the destination being the winner's staged bytes;
under arbitrary interleaving of the check and rename steps both calls
may succeed (the documented check-then-act race). -/
theorem c2_amended_serialized_exclusivity (s : FileObjectStore) (fs : Fs)
    (pA pB pD : Path) (dA : List Nat) (mA : Int)
    (h0 : Fs.find fs (resolvePath s pD) = none)
    (h1 : resolvePath s pD ∉ fs.denied)
    (h2 : Fs.find fs (resolvePath s pA) = some (.file dA mA))
    (h3 : parentExists fs (resolvePath s pD) = true) :
    ∃ fs1,
      FileObjectStore.RenameIfNotExists s fs pA pD = some (fs1, none) ∧
      FileObjectStore.RenameIfNotExists s fs1 pB pD =
        some (fs1, some (.wrapf .versionAlreadyExists)) ∧
      FileObjectStore.Get s fs1 pD = .ok dA := by
  refine ⟨{ fs with entries := moveEntries fs.entries (resolvePath s pA) (resolvePath s pD) }, ?_, ?_, ?_⟩
  · have hh : FileObjectStore.Head s fs pD =
        some (zeroMeta, some (.join .objectDoesNotExist .osNotExist)) := by
      simp [FileObjectStore.Head, osStat, if_neg h1, h0]
    have hmatch : errIsOpt (some (.join .objectDoesNotExist .osNotExist))
        .objectDoesNotExist = true := by decide
    simp only [FileObjectStore.RenameIfNotExists, hh, hmatch]
    simp only [FileObjectStore.Rename, osRename, h2, h3]
    simp [h0]
  · have hfind : Fs.find
        { fs with entries := moveEntries fs.entries (resolvePath s pA) (resolvePath s pD) }
        (resolvePath s pD) = some (.file dA mA) := by
      simpa [Fs.find, lookupKey_moveEntries fs.entries _ _ h0] using h2
    simp only [FileObjectStore.RenameIfNotExists, FileObjectStore.Head, osStat,
      if_neg h1, hfind]
    simp [errIsOpt, infoOfEntry]
  · have hfind : Fs.find
        { fs with entries := moveEntries fs.entries (resolvePath s pA) (resolvePath s pD) }
        (resolvePath s pD) = some (.file dA mA) := by
      simpa [Fs.find, lookupKey_moveEntries fs.entries _ _ h0] using h2
    simp [FileObjectStore.Get, osReadFile, hfind]

/-- Witness for the amended C2 at a concrete store. -/
theorem c2_witness :
    ∃ fs1,
      FileObjectStore.RenameIfNotExists demoStore fsRaceDemo { Raw := "sa" } { Raw := "p" } =
        some (fs1, none) ∧
      FileObjectStore.RenameIfNotExists demoStore fs1 { Raw := "sb" } { Raw := "p" } =
        some (fs1, some (.wrapf .versionAlreadyExists)) ∧
      FileObjectStore.Get demoStore fs1 { Raw := "p" } = .ok [1] :=
  c2_amended_serialized_exclusivity demoStore fsRaceDemo
    { Raw := "sa" } { Raw := "sb" } { Raw := "p" } [1] 0
    (by decide) (by decide) (by decide) (by decide)

/-- Counterexample for C3: when a directory already occupies the
destination, Put fails (WriteFile reports a directory) and the
subsequent Get does not return the payload. -/
theorem c3_counterexample :
    FileObjectStore.Put demoStore fsDirDemo { Raw := "d" } [7] =
      (fsDirDemo, some .osIsDir) ∧
    FileObjectStore.Get demoStore
      (FileObjectStore.Put demoStore fsDirDemo { Raw := "d" } [7]).1 { Raw := "d" } ≠
      .ok [7] := by
  decide

/-- Claim C3 amended: whenever Put(p, b) succeeds (returns a nil
error), Get(p) on the resulting store returns exactly b; Put can fail
when the resolved location is occupied by a directory or an ancestor
component by a regular file. -/
theorem c3_amended_put_get_roundtrip (s : FileObjectStore) (fs fs1 : Fs)
    (p : Path) (b : List Nat)
    (h : FileObjectStore.Put s fs p b = (fs1, none)) :
    FileObjectStore.Get s fs1 p = .ok b := by
  simp only [FileObjectStore.Put] at h
  split at h
  next e heq => simp at h
  next fsm heq =>
    split at h
    next e heq2 => simp at h
    next fsw heq2 =>
      have hfs : fsw = fs1 := by simpa using congrArg Prod.fst h
      unfold osWriteFile at heq2
      split at heq2
      next => simp at heq2
      next =>
        have hins : Fs.insert fsm (resolvePath s p) (.file b 0) = fsw := by
          simpa using heq2
        rw [← hfs, ← hins]
        simp [FileObjectStore.Get, osReadFile, find_insert]

/-- Witness for the amended C3 at a concrete store. -/
theorem c3_witness :
    FileObjectStore.Get demoStore
      (FileObjectStore.Put demoStore fsDirDemo { Raw := "n/w" } [7, 8]).1
      { Raw := "n/w" } = .ok [7, 8] :=
  c3_amended_put_get_roundtrip demoStore fsDirDemo
    (FileObjectStore.Put demoStore fsDirDemo { Raw := "n/w" } [7, 8]).1
    { Raw := "n/w" } [7, 8] (by decide)

/-- Counterexample for C5: Get on an absent path returns the raw OS
not-exist error, which does not match the storage ObjectDoesNotExist
sentinel under errors.Is. -/
theorem c5_counterexample :
    FileObjectStore.Get demoStore fsDirDemo { Raw := "nope" } =
      .error .osNotExist ∧
    errIs .osNotExist .objectDoesNotExist = false := by
  decide

/-- Claim C5 amended: Get on an absent path fails, but with the
underlying OS not-exist error returned unwrapped; the error does not
match the ObjectDoesNotExist sentinel, so callers cannot discriminate
it by that kind. -/
theorem c5_amended_get_raw_os_error (s : FileObjectStore) (fs : Fs) (p : Path)
    (h : Fs.find fs (resolvePath s p) = none) :
    FileObjectStore.Get s fs p = .error .osNotExist ∧
    errIs .osNotExist .objectDoesNotExist = false := by
  exact ⟨by simp [FileObjectStore.Get, osReadFile, h], rfl⟩

/-- Witness for the amended C5 at a concrete store. -/
theorem c5_witness :
    FileObjectStore.Get demoStore fsDirDemo { Raw := "nope" } =
      .error .osNotExist ∧
    errIs .osNotExist .objectDoesNotExist = false :=
  c5_amended_get_raw_os_error demoStore fsDirDemo { Raw := "nope" } (by decide)

/-- Counterexample for C6: Head on a directory reports the directory's
stat size (4096 here), not 0. -/
theorem c6_counterexample :
    FileObjectStore.Head demoStore fsDirDemo { Raw := "d" } =
      some ({ Location := { Raw := "store/d" }, Size := 4096, LastModified := 0 },
            some .objectIsDir) ∧
    (4096 : Int) ≠ 0 := by
  decide

/-- Claim C6 amended: Head on a directory returns the ObjectIsDir
error together with a populated ObjectMeta whose Size is the size stat
reports for the directory (not necessarily 0) and whose Location (the
full resolved path) and LastModified are filled in. -/
theorem c6_amended_head_on_directory (s : FileObjectStore) (fs : Fs) (loc : Path)
    (sz m : Int)
    (hd : resolvePath s loc ∉ fs.denied)
    (hf : Fs.find fs (resolvePath s loc) = some (.dir sz m)) :
    FileObjectStore.Head s fs loc =
      some ({ Location := { Raw := strOfComps (resolvePath s loc) },
              Size := sz, LastModified := m },
            some .objectIsDir) := by
  simp [FileObjectStore.Head, osStat, if_neg hd, hf, infoOfEntry]

/-- Witness for the amended C6 at a concrete store. -/
theorem c6_witness :
    FileObjectStore.Head demoStore fsDirDemo { Raw := "d" } =
      some ({ Location := { Raw := strOfComps (resolvePath demoStore { Raw := "d" }) },
              Size := 4096, LastModified := 0 },
            some .objectIsDir) :=
  c6_amended_head_on_directory demoStore fsDirDemo { Raw := "d" } 4096 0
    (by decide) (by decide)

/-- Claim C7: listing prefix "a/" when files "a/x" and "a/b/y" exist
returns entries for "a/x", "a/b/" (a directory entry with a trailing
separator and size 0) and "a/b/y"; listing the missing prefix "z/"
returns an empty result with no error. -/
theorem c7_directory_listing_convention :
    ({ Location := { Raw := "a/x" }, Size := 1, LastModified := 3 } : ObjectMeta) ∈
        okD (FileObjectStore.List demoStore fsListDemo { Raw := "a/" }) ∧
    ({ Location := { Raw := "a/b/" }, Size := 0, LastModified := 4 } : ObjectMeta) ∈
        okD (FileObjectStore.List demoStore fsListDemo { Raw := "a/" }) ∧
    ({ Location := { Raw := "a/b/y" }, Size := 2, LastModified := 5 } : ObjectMeta) ∈
        okD (FileObjectStore.List demoStore fsListDemo { Raw := "a/" }) ∧
    FileObjectStore.List demoStore fsListDemo { Raw := "z/" } = .ok [] := by
  decide

/-- Claim C10: on a path whose stat fails with an error other than
not-exist (modelled by the denied set: e.g. permission denied), Head
dereferences the nil FileInfo — modelled as the panic result none —
and RenameIfNotExists, which calls Head on its destination first,
panics as well instead of surfacing a discriminable error. -/
theorem c10_head_panics_on_other_stat_error (s : FileObjectStore) (fs : Fs)
    (f loc : Path)
    (h : resolvePath s loc ∈ fs.denied) :
    FileObjectStore.Head s fs loc = none ∧
    FileObjectStore.RenameIfNotExists s fs f loc = none := by
  have hh : FileObjectStore.Head s fs loc = none := by
    simp [FileObjectStore.Head, osStat, if_pos h]
  exact ⟨hh, by simp [FileObjectStore.RenameIfNotExists, hh]⟩

/-- Sanity check that the store-relativity predicate is not vacuous:
the unstripped full resolved path "store/a/x" does not satisfy it on
the demo store — no entry's base-stripped path reads that way. -/
theorem strippedLocOf_not_trivial :
    ¬ strippedLocOf fsListDemo (comps demoStore.BaseURI.Raw)
      { Location := { Raw := "store/a/x" }, Size := 1, LastModified := 3 } := by
  rintro ⟨k, e, hf, hp, hl⟩
  have hmem := lookupKey_some_mem _ _ _ hf
  simp only [fsListDemo, List.mem_cons, List.not_mem_nil, or_false,
    Prod.mk.injEq] at hmem
  rcases hmem with ⟨rfl, rfl⟩ | ⟨rfl, rfl⟩ | ⟨rfl, rfl⟩ | ⟨rfl, rfl⟩ | ⟨rfl, rfl⟩ <;>
    exact absurd hl (by decide)

/-- Counterexample for C4: Head on file "f" under base "store" returns
Location "store/f" — the full resolved path, which starts with the
BaseURI prefix — rather than the stripped "f". -/
theorem c4_counterexample :
    (FileObjectStore.Head demoStore fsDirDemo { Raw := "f" }).map
        (fun r => r.1.Location.Raw) = some "store/f" ∧
    hasPrefixStr "store/f" (demoStore.BaseURI.Raw ++ "/") = true ∧
    ("store/f" : String) ≠ "f" := by
  decide

/-- Claim C4 amended: every Path in a List result is store-relative —
its Location is an entry of the store's resolved component path with
the BaseURI components stripped from the front, the entry's kind
matching the trailing-separator convention (stated for prefixes whose
directory part does not strictly extend the BaseURI components: with a
relative base that is a strict component-prefix of the directory part,
the directory self-entry is trimmed a second time by TrimPrefix) — but
the ObjectMeta returned by Head carries the full resolved path,
BaseURI joined with the queried location, as its Location. -/
theorem c4_amended_path_relativity :
    (∀ (s : FileObjectStore) (fs : Fs) (loc : Path) (info : FileInfo),
      osStat fs (resolvePath s loc) = (some info, none) →
      ∃ herr, FileObjectStore.Head s fs loc =
        some ({ Location := { Raw := strOfComps (resolvePath s loc) },
                Size := info.size, LastModified := info.modTime }, herr)) ∧
    (∀ (s : FileObjectStore) (fs : Fs) (pfxP : Path) (out : List ObjectMeta),
      keysNodup fs →
      ¬(comps s.BaseURI.Raw ≠ splitDirComps pfxP.Raw ∧
        comps s.BaseURI.Raw <+: splitDirComps pfxP.Raw) →
      FileObjectStore.List s fs pfxP = .ok out →
      ∀ m ∈ out, strippedLocOf fs (comps s.BaseURI.Raw) m) := by
  constructor
  · intro s fs loc info hstat
    simp only [FileObjectStore.Head, hstat]
    by_cases hd : info.isDir = true
    · exact ⟨some .objectIsDir, by simp [hd]⟩
    · exact ⟨none, by simp [hd]⟩
  · intro s fs pfxP out hn hnp hlist m hmem
    rcases hfd : Fs.find fs (comps s.BaseURI.Raw ++ splitDirComps pfxP.Raw)
      with - | e
    · rw [List_unfold_ok s fs pfxP [] (listFiles_of_find_none fs _ _ _ hfd)]
        at hlist
      split at hlist
      · split at hlist
        next fst e heq2 =>
          split at hlist
          · have hout : ([] : List ObjectMeta) = out := by simpa using hlist
            rw [← hout] at hmem
            simp at hmem
          · simp at hlist
        next info heq2 =>
          exfalso
          by_cases hden : (comps s.BaseURI.Raw ++ splitDirComps pfxP.Raw) ∈ fs.denied
          · simp [osStat, if_pos hden] at heq2
          · simp [osStat, if_neg hden, hfd] at heq2
        next heq2 =>
          have hout : ([] : List ObjectMeta) = out := by simpa using hlist
          rw [← hout] at hmem
          simp at hmem
      · have hout : ([] : List ObjectMeta) = out := by simpa using hlist
        rw [← hout] at hmem
        simp at hmem
    · rcases e with ⟨d0, m0⟩ | ⟨sz, mt⟩
      · rw [List_unfold_error s fs pfxP .osNotDir
          (listFiles_of_find_file fs _ _ _ d0 m0 hfd)] at hlist
        simp at hlist
      · have hwrap := listFiles_eq_catList fs (comps s.BaseURI.Raw) hn
          (comps s.BaseURI.Raw ++ splitDirComps pfxP.Raw)
          (splitFilePart pfxP.Raw) sz mt hfd
        have hfilesStrip := mem_listFiles_strippedFrom fs (comps s.BaseURI.Raw) hn
          (fsDepth fs + 1 - (comps s.BaseURI.Raw ++ splitDirComps pfxP.Raw).length)
          (comps s.BaseURI.Raw ++ splitDirComps pfxP.Raw)
          (splitFilePart pfxP.Raw) sz mt rfl hfd
          (List.prefix_append _ _)
        rw [hwrap] at hfilesStrip
        simp only [okD] at hfilesStrip
        rw [List_unfold_ok s fs pfxP _ hwrap] at hlist
        split at hlist
        · split at hlist
          next fst e heq2 =>
            split at hlist
            · injection hlist with hout
              rw [← hout] at hmem
              exact hfilesStrip m hmem
            · simp at hlist
          next info heq2 =>
            injection hlist with hout
            rw [← hout] at hmem
            rcases List.mem_append.mp hmem with h1 | h2
            · exact hfilesStrip m h1
            · have hm2 : m = objectMetaFromFileInfo info
                  (splitDirComps pfxP.Raw) true [] (comps s.BaseURI.Raw) := by
                simpa using h2
              refine ⟨comps s.BaseURI.Raw ++ splitDirComps pfxP.Raw, .dir sz mt,
                hfd, List.prefix_append _ _, ?_⟩
              rw [hm2]
              have ht : trimPrefixC (splitDirComps pfxP.Raw)
                  (comps s.BaseURI.Raw) = splitDirComps pfxP.Raw := by
                unfold trimPrefixC
                rw [if_neg (fun h => hnp ⟨h.1, List.isPrefixOf_iff_prefix.mp h.2⟩)]
              simp [objectMetaFromFileInfo, ht, FsEntry.isDirE, List.drop_left]
          next heq2 =>
            injection hlist with hout
            rw [← hout] at hmem
            exact hfilesStrip m hmem
        · injection hlist with hout
          rw [← hout] at hmem
          exact hfilesStrip m hmem

/-- Witness for the amended C4: Head's location is the full resolved
path on a concrete file; every member of a concrete List result is
base-stripped. -/
theorem c4_witness :
    (∃ herr, FileObjectStore.Head demoStore fsDirDemo { Raw := "f" } =
      some ({ Location := { Raw := "store/f" }, Size := 1, LastModified := 7 },
            herr)) ∧
    (∀ m ∈ ([{ Location := { Raw := "a/x" }, Size := 1, LastModified := 3 },
             { Location := { Raw := "a/b/" }, Size := 0, LastModified := 4 },
             { Location := { Raw := "a/b/y" }, Size := 2, LastModified := 5 },
             { Location := { Raw := "a/" }, Size := 0, LastModified := 2 }] :
             List ObjectMeta),
      strippedLocOf fsListDemo (comps demoStore.BaseURI.Raw) m) := by
  constructor
  · exact (c4_amended_path_relativity.1 demoStore fsDirDemo { Raw := "f" }
      { size := 1, modTime := 7, isDir := false } (by decide))
  · intro m hm
    exact c4_amended_path_relativity.2 demoStore fsListDemo { Raw := "a/" }
      [{ Location := { Raw := "a/x" }, Size := 1, LastModified := 3 },
       { Location := { Raw := "a/b/" }, Size := 0, LastModified := 4 },
       { Location := { Raw := "a/b/y" }, Size := 2, LastModified := 5 },
       { Location := { Raw := "a/" }, Size := 0, LastModified := 2 }]
      (by decide) (by decide) rfl m hm

/-- Claim C8: when the prefix has a nonempty directory part (its raw
string contains a separator), an empty name-prefix part, and the
directory it names exists (and its stat succeeds), the List result
contains an entry for that directory itself — trailing separator,
size 0 — appended after the entries found beneath it. -/
theorem c8_list_includes_listed_directory (s : FileObjectStore) (fs : Fs)
    (pfxP : Path) (sz mt : Int)
    (hn : keysNodup fs)
    (hs : hasSlash pfxP.Raw = true)
    (hf0 : splitFilePart pfxP.Raw = "")
    (hden : (comps s.BaseURI.Raw ++ splitDirComps pfxP.Raw) ∉ fs.denied)
    (hfind : Fs.find fs (comps s.BaseURI.Raw ++ splitDirComps pfxP.Raw) =
      some (.dir sz mt)) :
    ∃ files, FileObjectStore.List s fs pfxP =
      .ok (files ++
        [{ Location :=
             { Raw := strOfComps (trimPrefixC (splitDirComps pfxP.Raw)
                 (comps s.BaseURI.Raw)) ++ "/" }
           Size := 0
           LastModified := mt }]) := by
  have hwrap := listFiles_eq_catList fs (comps s.BaseURI.Raw) hn
    (comps s.BaseURI.Raw ++ splitDirComps pfxP.Raw) (splitFilePart pfxP.Raw)
    sz mt hfind
  have hstat : osStat fs (comps s.BaseURI.Raw ++ splitDirComps pfxP.Raw) =
      (some (infoOfEntry (.dir sz mt)), none) := by
    simp [osStat, if_neg hden, hfind]
  refine ⟨okD (listFilesInDirRecursively fs (comps s.BaseURI.Raw)
    (comps s.BaseURI.Raw ++ splitDirComps pfxP.Raw) (splitFilePart pfxP.Raw)), ?_⟩
  rw [List_unfold_ok s fs pfxP _ hwrap, if_pos ⟨hs, hf0⟩, hstat, hwrap]
  simp [okD, objectMetaFromFileInfo, infoOfEntry]

/-- Witness for C8 at a concrete store: listing "a/" yields "a/"
itself as a result. -/
theorem c8_witness :
    ∃ files, FileObjectStore.List demoStore fsListDemo { Raw := "a/" } =
      .ok (files ++ [{ Location := { Raw := "a/" }, Size := 0, LastModified := 2 }]) := by
  obtain ⟨files, h⟩ := c8_list_includes_listed_directory demoStore fsListDemo
    { Raw := "a/" } 4096 2 (by decide) (by decide) (by decide) (by decide) (by decide)
  exact ⟨files, h⟩

/-- Claim C9: the name filter applies only to the top level of the
listed directory — a child is emitted exactly when its name starts
with the name-prefix (the empty prefix matches every name, so the
source's "prefix empty or HasPrefix" test is just HasPrefix), and a
matching directory child is followed by its own complete listing under
the empty filter, so nothing below the first level is filtered. -/
theorem c9_top_level_name_filter (fs : Fs) (b dir : PathC) (pfx : String)
    (results : List (String × FsEntry))
    (hn : keysNodup fs)
    (hr : osReadDir fs dir = .ok results) :
    (∀ c : String × FsEntry,
      (pfx = "" || hasPrefixStr c.1 pfx : Bool) = hasPrefixStr c.1 pfx) ∧
    listFilesInDirRecursively fs b dir pfx =
      .ok (catList (fun c =>
        if hasPrefixStr c.1 pfx then
          objectMetaFromDirEntry c dir b ::
            (if FsEntry.isDirE c.2 then
              okD (listFilesInDirRecursively fs b (dir ++ [c.1]) "")
             else [])
        else []) results) := by
  have hempty : ∀ t : String, hasPrefixStr t "" = true := by
    intro t
    simp [hasPrefixStr, List.isPrefixOf]
  have hcnd : ∀ c : String × FsEntry,
      (pfx = "" || hasPrefixStr c.1 pfx : Bool) = hasPrefixStr c.1 pfx := by
    intro c
    by_cases hp : pfx = ""
    · subst hp
      rw [hempty c.1]
      simp
    · simp [hp]
  refine ⟨hcnd, ?_⟩
  unfold osReadDir at hr
  split at hr
  next sz mt heq =>
    have hres : childrenOf fs dir = results := by simpa using hr
    rw [listFiles_eq_catList fs b hn dir pfx sz mt heq, ← hres]
    exact congrArg Except.ok (catList_congr (fun c _ => by rw [hcnd c]))
  next d0 m0 heq => exact absurd hr (by simp)
  next heq => exact absurd hr (by simp)

/-- Witness for C9: listing prefix "ab" over "abc.txt", "abd.txt" and
"xyz.txt" returns exactly the first two. -/
theorem c9_witness :
    listFilesInDirRecursively fsAbDemo ["s"] ["s"] "ab" =
      .ok [{ Location := { Raw := "abc.txt" }, Size := 1, LastModified := 1 },
           { Location := { Raw := "abd.txt" }, Size := 1, LastModified := 2 }] := by
  have h := (c9_top_level_name_filter fsAbDemo ["s"] ["s"] "ab"
    (childrenOf fsAbDemo ["s"]) (by decide) rfl).2
  rw [h]
  decide

/-- Witness for C10 at a concrete store. -/
theorem c10_witness :
    FileObjectStore.Head demoStore fsDeniedDemo { Raw := "locked" } = none ∧
    FileObjectStore.RenameIfNotExists demoStore fsDeniedDemo
      { Raw := "x" } { Raw := "locked" } = none :=
  c10_head_panics_on_other_stat_error demoStore fsDeniedDemo
    { Raw := "x" } { Raw := "locked" } (by decide)

end DeltaGo
